import Mathlib

/-!
Shallow embedding of the FSCABC optimizer in spotpy/algorithms/fscabc.py
(class fscabc, methods mutate and sample).

Python floats are modelled as exact rationals.  All randomness consumed by
the algorithm (partner indices, mutated dimensions, uniform draws, the
chaotic seed) and the external simulation/objective pipeline are passed in
explicitly as oracle values, matching the statement-by-statement structure
of fscabc.sample.  Line numbers in the doc comments refer to
src/spotpy/algorithms/fscabc.py.

A central aliasing fact drives several theorems below: line 127 appends the
same array object twice,

  work.append([like, randompar, like, randompar, c, p])

so work[i][1] (the current position) and work[i][3] (the candidate
position) are one array.  Every later write to either slot is an in-place
element update (lines 151-156, 203-208, 228-230) or the reference
assignment work[rep][1] = work[rep][3] (lines 170, 216) between two already
identical references; the two slots therefore denote one array for the
whole run, and the model carries a single field for it.
-/

namespace fscabc

/-- One row of the work list (line 127).  A row is
[like, randompar, like, randompar, c, p]: slot 0 is the current fitness
work[i][0]; slots 1 and 3 are the current and candidate position, which by
the aliasing of line 127 are one array, modelled by the single field pos;
slot 2 (the candidate fitness) is written only at line 127 and never read
afterwards, so it is omitted; slot 4 is the stagnation counter; slot 5 the
scaled fitness. -/
structure Bee where
  fit : ℚ
  pos : List ℚ
  stag : ℕ
  scaled : ℚ
deriving DecidableEq

instance : Inhabited Bee := ⟨⟨0, [], 0, 0⟩⟩

/-- Random draws consumed for one bee by the employed-phase generation loop
(lines 147-152): k is the partner index (random.randint(0, eb-1), redrawn
while k == i), j the mutated dimension (random.randint(0, nopt-1)), and u
the value returned by random.uniform(-a, a). -/
structure MutOracle where
  k : ℕ
  j : ℕ
  u : ℚ
deriving DecidableEq

instance : Inhabited MutOracle := ⟨⟨0, 0, 0⟩⟩

/-- Random draws consumed for one slot by the onlooker-phase generation
loop (lines 192-204): pn is the roulette draw random.uniform(0, 1), the
other three as in MutOracle. -/
structure OnOracle where
  pn : ℚ
  k : ℕ
  j : ℕ
  u : ℚ
deriving DecidableEq

instance : Inhabited OnOracle := ⟨⟨0, 0, 0, 0⟩⟩

/-- One record written through datawriter.save (lines 123, 176, 222, 236):
the saved likelihood, the saved parameter vector, and the chains tag (none
for the save at line 123, which passes no chains argument).  Simulation
output is not modelled. -/
structure SaveRec where
  like : ℚ
  par : List ℚ
  chain : Option ℕ
deriving DecidableEq

instance : Inhabited SaveRec := ⟨⟨0, [], none⟩⟩

/-- State of fscabc.sample between statements: the work list, the chaotic
cursor r, the counter icall, the sequence of persisted records, and the
number of Evaluation Gateway invocations issued so far (one per item drawn
from self.repeat and one per self.simulate call).  The evals field is not a
variable of the source; it is the count of gateway calls that claims C3 and
C5 are about. -/
structure RState where
  pop : List Bee
  r : ℚ
  icall : ℕ
  saves : List SaveRec
  evals : ℕ
deriving DecidableEq

/-- fscabc.mutate (lines 67-69): the logistic map at parameter 4. -/
def mutate (r : ℚ) : ℚ := 4 * r * (1 - r)

/-- Clamping of a freshly mutated coordinate to the parameter bounds: the
two sequential if statements at lines 153-156 (and 205-208). -/
def clampBounds (lo hi v : ℚ) : ℚ :=
  let v1 := if v < lo then lo else v
  if v1 > hi then hi else v1

/-- Value written into dimension j by lines 151-156 (employed) and 203-208
(onlooker): base coordinate xi, donor coordinate xk, perturbed by u and
clamped to [lb[j], ub[j]]. -/
def mutDim (lb ub : List ℚ) (j : ℕ) (u xi xk : ℚ) : ℚ :=
  clampBounds (lb.getD j 0) (ub.getD j 0) (xi + u * (xi - xk))

/-- One iteration of the employed-phase generation loop (lines 146-156) for
bee i: write the mutated, clamped coordinate into dimension j of the bee's
array.  Because work[i][3] and work[i][1] are one array, the write at line
151 updates the bee's current position as well. -/
def employedGen1 (lb ub : List ℚ) (os : List MutOracle) (pop : List Bee) (i : ℕ) : List Bee :=
  let o := os.getD i default
  let b := pop.getD i default
  let xk := (pop.getD o.k default).pos.getD o.j 0
  pop.set i { b with pos := b.pos.set o.j (mutDim lb ub o.j o.u (b.pos.getD o.j 0) xk) }

/-- Employed-phase generation loop over i in range(eb) (lines 146-156),
mutating the work list in place. -/
def employedGenPhase (lb ub : List ℚ) (os : List MutOracle) (st : RState) : RState :=
  { st with pop := (List.range st.pop.length).foldl (employedGen1 lb ub os) st.pop }

/-- One iteration of the evaluation/selection loop shared verbatim by the
employed phase (lines 164-178) and the onlooker phase (lines 210-224): one
Evaluation Gateway call on work[rep][3], greedy accept on strict
improvement (clike > work[rep][0]) or stagnation increment, a
datawriter.save of (clike, work[rep][3]) tagged chains=icall, then
icall += 1.  The accept assignment work[rep][1] = work[rep][3] (lines 170,
216) re-binds a reference to the identical array and changes nothing. -/
def evalStep (obj : List ℚ → ℚ) (st : RState) (rep : ℕ) : RState :=
  let b := st.pop.getD rep default
  let clike := obj b.pos
  let b' := if clike > b.fit then { b with fit := clike, stag := 0 }
            else { b with stag := b.stag + 1 }
  { st with
      pop := st.pop.set rep b',
      saves := st.saves ++ [⟨clike, b.pos, some st.icall⟩],
      icall := st.icall + 1,
      evals := st.evals + 1 }

/-- Evaluation/selection loop over rep in range(eb) (lines 164-178 and
210-224). -/
def evalPhase (obj : List ℚ → ℚ) (st : RState) : RState :=
  (List.range st.pop.length).foldl (evalStep obj) st

/-- Sum of the raw rank scores i**kpow accumulated into csum by the loop at
lines 183-185. -/
def csumOf (kpow n : ℕ) : ℚ := ∑ i ∈ Finset.range n, (i : ℚ) ^ kpow

/-- Normalization loop (lines 186-188): the bee at rank m + position gets
scaled fitness rank**kpow / cs. -/
def assignScaled (kpow : ℕ) (cs : ℚ) : ℕ → List Bee → List Bee
  | _, [] => []
  | m, b :: bs => { b with scaled := (m : ℚ) ^ kpow / cs } :: assignScaled kpow cs (m + 1) bs

/-- Fitness scaling (lines 180-188): sort the work list ascending by
current fitness (Python's list.sort is stable, as is insertionSort) and
give the bee at sorted rank i the normalized score i**kpow / csum. -/
def scalePhase (kpow : ℕ) (st : RState) : RState :=
  let sorted := List.insertionSort (fun b c : Bee => b.fit ≤ c.fit) st.pop
  { st with pop := assignScaled kpow (csumOf kpow sorted.length) 0 sorted }

/-- Running-sum list: np.cumsum with initial accumulator acc. -/
def cumsumFrom (acc : ℚ) : List ℚ → List ℚ
  | [] => []
  | x :: xs => (acc + x) :: cumsumFrom (acc + x) xs

/-- bounds = np.cumsum(bn) (line 189), where bn is the list of scaled
fitness values in sorted order built at line 188. -/
def boundsOf (pop : List Bee) : List ℚ :=
  cumsumFrom 0 (pop.map Bee.scaled)

/-- Roulette-wheel selection loop (lines 197-200): the first index t with
bounds[t] - pn >= 0, or none when no index qualifies (in the source z would
then be left unbound and line 203 would raise on the first slot). -/
def rouletteZ (bounds : List ℚ) (pn : ℚ) : Option ℕ :=
  (List.range bounds.length).find? (fun t => decide (0 ≤ bounds.getD t 0 - pn))

/-- One iteration of the onlooker-phase generation loop (lines 192-208) for
slot i: roulette-select the guide z, then write the mutated, clamped
coordinate built from the guide's and the partner's positions into
dimension j of slot i's array.  When the roulette loop selects no index the
model leaves the state unchanged (see rouletteZ); no theorem below relies
on that branch. -/
def onlookerGen1 (lb ub : List ℚ) (os : List OnOracle) (bounds : List ℚ)
    (pop : List Bee) (i : ℕ) : List Bee :=
  let o := os.getD i default
  match rouletteZ bounds o.pn with
  | none => pop
  | some z =>
    let b := pop.getD i default
    let xz := (pop.getD z default).pos.getD o.j 0
    let xk := (pop.getD o.k default).pos.getD o.j 0
    pop.set i { b with pos := b.pos.set o.j (mutDim lb ub o.j o.u xz xk) }

/-- Onlooker-phase generation loop (lines 190-208); bounds is the fixed
array computed once at line 189 before the loop runs. -/
def onlookerGenPhase (lb ub : List ℚ) (os : List OnOracle) (st : RState) : RState :=
  let bounds := boundsOf st.pop
  { st with pop := (List.range st.pop.length).foldl (onlookerGen1 lb ub os bounds) st.pop }

/-- Chaotic in-place regeneration of a full position (lines 228-230): for
each dimension g advance the cursor through mutate and set
lb[g] + r * (ub[g] - lb[g]). -/
def scoutRegen (lb ub : List ℚ) (r0 : ℚ) (p : List ℚ) : ℚ × List ℚ :=
  (List.range ub.length).foldl
    (fun s g =>
      let r := mutate s.1
      (r, s.2.set g (lb.getD g 0 + r * (ub.getD g 0 - lb.getD g 0))))
    (r0, p)

/-- One iteration of the scout loop (lines 226-239) for bee i: when the
stagnation counter has reached the limit, regenerate the position in place,
reset the counter, evaluate the new position once through self.simulate
(one Gateway call), persist, and increment icall.  The save at lines
236-237 passes work[rep][3] where rep is the leftover loop variable of the
onlooker evaluation loop, equal to eb - 1 under sequential execution, so it
records the last slot's array rather than bee i's.  Line 232's transient
write into work[i][0] is overwritten by line 238, leaving work[i][0] =
clike. -/
def scoutStep (lb ub : List ℚ) (obj : List ℚ → ℚ) (limit : ℕ) (st : RState) (i : ℕ) : RState :=
  let b := st.pop.getD i default
  if limit ≤ b.stag then
    let rp := scoutRegen lb ub st.r b.pos
    let clike := obj rp.2
    let pop' := st.pop.set i { b with pos := rp.2, stag := 0, fit := clike }
    { pop := pop',
      r := rp.1,
      icall := st.icall + 1,
      saves := st.saves ++ [⟨clike, (pop'.getD (pop'.length - 1) default).pos, some st.icall⟩],
      evals := st.evals + 1 }
  else st

/-- Scout-bee phase (lines 225-239). -/
def scoutPhase (lb ub : List ℚ) (obj : List ℚ → ℚ) (limit : ℕ) (st : RState) : RState :=
  (List.range st.pop.length).foldl (scoutStep lb ub obj limit) st

/-- Per-generation random draws: one MutOracle per bee for the employed
phase and one OnOracle per slot for the onlooker phase. -/
structure GenOracle where
  emp : List MutOracle
  onl : List OnOracle

/-- One iteration of the main while loop (lines 143-252; the progress and
convergence printing touch no algorithm state): employed generation,
employed evaluation, fitness scaling, onlooker generation, onlooker
evaluation, scout phase. -/
def generation (lb ub : List ℚ) (obj : List ℚ → ℚ) (kpow limit : ℕ)
    (g : GenOracle) (st : RState) : RState :=
  scoutPhase lb ub obj limit
    (evalPhase obj
      (onlookerGenPhase lb ub g.onl
        (scalePhase kpow
          (evalPhase obj
            (employedGenPhase lb ub g.emp st)))))

/-- Initialization (lines 109-140): one Gateway evaluation per drawn
parameter set (the eb draws of line 113), one save per evaluation (line
123, without a chains tag), the work rows of line 127 (current and
candidate position the same freshly drawn array, stagnation 0, scaled
weight 0), and icall = 0 only afterwards (line 140) - the eb
initialization evaluations are issued before icall exists.  r0 is the
chaotic seed drawn at lines 105-107, a uniform value in (0,1) redrawn while
it equals 0.25, 0.5 or 0.75. -/
def initState (obj : List ℚ → ℚ) (r0 : ℚ) (pars : List (List ℚ)) : RState :=
  { pop := pars.map (fun p => { fit := obj p, pos := p, stag := 0, scaled := 0 }),
    r := r0,
    icall := 0,
    saves := pars.map (fun p => { like := obj p, par := p, chain := none }),
    evals := pars.length }

/-- Any finite number of iterations of the main while loop (line 143). -/
def applyGens (lb ub : List ℚ) (obj : List ℚ → ℚ) (kpow limit : ℕ)
    (gs : List GenOracle) (st : RState) : RState :=
  gs.foldl (fun s g => generation lb ub obj kpow limit g s) st

/-- Follows the spec's words for claim C7 (spec section 5): employed-phase
candidate generation for bee i reads only currentPosition vectors as they
were at entry to the phase, so every candidate is computed from one
snapshot of the population. -/
def employedGenSnapshot (lb ub : List ℚ) (os : List MutOracle) (pop : List Bee) : List Bee :=
  (List.range pop.length).map (fun i =>
    let o := os.getD i default
    let b := pop.getD i default
    let xk := (pop.getD o.k default).pos.getD o.j 0
    { b with pos := b.pos.set o.j (mutDim lb ub o.j o.u (b.pos.getD o.j 0) xk) })

/-- Position p has the dimensionality of the parameter space and lies
within the bounds in every dimension. -/
def inB (lb ub : List ℚ) (p : List ℚ) : Prop :=
  p.length = ub.length ∧
  ∀ g, g < ub.length → lb.getD g 0 ≤ p.getD g 0 ∧ p.getD g 0 ≤ ub.getD g 0

instance (lb ub : List ℚ) (p : List ℚ) : Decidable (inB lb ub p) := by
  unfold inB; infer_instance

end fscabc

namespace fscabc

/-- Reading back the slot just written by List.set. -/
theorem getD_set_self {α : Type} {l : List α} {i : ℕ} (h : i < l.length) (a d : α) :
    (l.set i a).getD i d = a := by
  rw [List.getD_eq_getElem?_getD, List.getElem?_set_self h, Option.getD_some]

/-- Reading any other slot after List.set. -/
theorem getD_set_ne {α : Type} {l : List α} {i j : ℕ} (h : i ≠ j) (a d : α) :
    (l.set i a).getD j d = l.getD j d := by
  rw [List.getD_eq_getElem?_getD, List.getElem?_set_ne h, ← List.getD_eq_getElem?_getD]

/-- A slot read with getD at an index inside the list is a member. -/
theorem getD_mem {α : Type} {l : List α} {i : ℕ} (h : i < l.length) (d : α) :
    l.getD i d ∈ l := by
  rw [List.getD_eq_getElem l d h]
  exact List.getElem_mem h

/-- One evaluation/selection step never lowers any slot's current fitness:
it either installs a strictly larger value or leaves the slot's fitness
alone. -/
theorem evalStep_fit_le (obj : List ℚ → ℚ) (st : RState) (rep i : ℕ) :
    (st.pop.getD i default).fit ≤ ((evalStep obj st rep).pop.getD i default).fit := by
  unfold evalStep
  dsimp only
  by_cases hir : rep = i
  · subst hir
    by_cases hlen : rep < st.pop.length
    · rw [getD_set_self hlen]
      split
      · next h => exact le_of_lt h
      · exact le_rfl
    · rw [List.set_eq_of_length_le (Nat.le_of_not_lt hlen)]
  · rw [getD_set_ne hir]

/-- The whole evaluation/selection loop never lowers any slot's current
fitness. -/
theorem evalPhase_fit_le (obj : List ℚ → ℚ) (st : RState) (i : ℕ) :
    (st.pop.getD i default).fit ≤ ((evalPhase obj st).pop.getD i default).fit := by
  unfold evalPhase
  refine List.foldlRecOn (motive := fun s => (st.pop.getD i default).fit ≤ (s.pop.getD i default).fit)
    (List.range st.pop.length) (evalStep obj) st le_rfl ?_
  intro s hs a _
  exact le_trans hs (evalStep_fit_le obj s a i)

/-- Employed-phase candidate generation rewrites only position arrays: no
slot's current fitness changes. -/
theorem employedGen1_fit (lb ub : List ℚ) (os : List MutOracle) (pop : List Bee) (i i' : ℕ) :
    ((employedGen1 lb ub os pop i).getD i' default).fit = (pop.getD i' default).fit := by
  unfold employedGen1
  dsimp only
  by_cases h : i = i'
  · subst h
    by_cases hlen : i < pop.length
    · rw [getD_set_self hlen]
    · rw [List.set_eq_of_length_le (Nat.le_of_not_lt hlen)]
  · rw [getD_set_ne h]

/-- Fitness preservation for the employed generation loop. -/
theorem employedGenPhase_fit (lb ub : List ℚ) (os : List MutOracle) (st : RState) (i : ℕ) :
    ((employedGenPhase lb ub os st).pop.getD i default).fit = (st.pop.getD i default).fit := by
  unfold employedGenPhase
  dsimp only
  refine List.foldlRecOn (motive := fun p => (p.getD i default).fit = (st.pop.getD i default).fit)
    (List.range st.pop.length) (employedGen1 lb ub os) st.pop rfl ?_
  intro p hp a _
  rw [employedGen1_fit, hp]

/-- Onlooker-phase candidate generation rewrites only position arrays: no
slot's current fitness changes. -/
theorem onlookerGen1_fit (lb ub : List ℚ) (os : List OnOracle) (bounds : List ℚ)
    (pop : List Bee) (i i' : ℕ) :
    ((onlookerGen1 lb ub os bounds pop i).getD i' default).fit = (pop.getD i' default).fit := by
  unfold onlookerGen1
  dsimp only
  rcases hz : rouletteZ bounds ((os.getD i default).pn) with _ | z
  · rfl
  · dsimp only
    by_cases h : i = i'
    · subst h
      by_cases hlen : i < pop.length
      · rw [getD_set_self hlen]
      · rw [List.set_eq_of_length_le (Nat.le_of_not_lt hlen)]
    · rw [getD_set_ne h]

/-- Fitness preservation for the onlooker generation loop. -/
theorem onlookerGenPhase_fit (lb ub : List ℚ) (os : List OnOracle) (st : RState) (i : ℕ) :
    ((onlookerGenPhase lb ub os st).pop.getD i default).fit = (st.pop.getD i default).fit := by
  unfold onlookerGenPhase
  dsimp only
  refine List.foldlRecOn (motive := fun p => (p.getD i default).fit = (st.pop.getD i default).fit)
    (List.range st.pop.length) (onlookerGen1 lb ub os (boundsOf st.pop)) st.pop rfl ?_
  intro p hp a _
  rw [onlookerGen1_fit, hp]

end fscabc

namespace fscabc

/-- The counter icall and the gateway-call count advance in lockstep
through one evaluation/selection step. -/
theorem evalStep_count (obj : List ℚ → ℚ) (st : RState) (rep : ℕ) (c : ℕ)
    (h : st.evals = c + st.icall) :
    (evalStep obj st rep).evals = c + (evalStep obj st rep).icall := by
  unfold evalStep
  dsimp only
  omega

/-- The counter icall and the gateway-call count advance in lockstep
through the whole evaluation/selection loop. -/
theorem evalPhase_count (obj : List ℚ → ℚ) (st : RState) (c : ℕ)
    (h : st.evals = c + st.icall) :
    (evalPhase obj st).evals = c + (evalPhase obj st).icall := by
  unfold evalPhase
  refine List.foldlRecOn (motive := fun s => s.evals = c + s.icall)
    (List.range st.pop.length) (evalStep obj) st h ?_
  intro s hs a _
  exact evalStep_count obj s a c hs

/-- The counter icall and the gateway-call count advance in lockstep
through one scout step: a reset issues exactly one simulate call and one
icall increment, and a skipped bee issues neither. -/
theorem scoutStep_count (lb ub : List ℚ) (obj : List ℚ → ℚ) (limit : ℕ)
    (st : RState) (i : ℕ) (c : ℕ) (h : st.evals = c + st.icall) :
    (scoutStep lb ub obj limit st i).evals = c + (scoutStep lb ub obj limit st i).icall := by
  unfold scoutStep
  dsimp only
  split
  · dsimp only; omega
  · exact h

/-- The counter icall and the gateway-call count advance in lockstep
through the scout phase. -/
theorem scoutPhase_count (lb ub : List ℚ) (obj : List ℚ → ℚ) (limit : ℕ)
    (st : RState) (c : ℕ) (h : st.evals = c + st.icall) :
    (scoutPhase lb ub obj limit st).evals = c + (scoutPhase lb ub obj limit st).icall := by
  unfold scoutPhase
  refine List.foldlRecOn (motive := fun s => s.evals = c + s.icall)
    (List.range st.pop.length) (scoutStep lb ub obj limit) st h ?_
  intro s hs a _
  exact scoutStep_count lb ub obj limit s a c hs

/-- The counter icall and the gateway-call count advance in lockstep
through one full generation of the main loop. -/
theorem generation_count (lb ub : List ℚ) (obj : List ℚ → ℚ) (kpow limit : ℕ)
    (g : GenOracle) (st : RState) (c : ℕ) (h : st.evals = c + st.icall) :
    (generation lb ub obj kpow limit g st).evals
      = c + (generation lb ub obj kpow limit g st).icall := by
  unfold generation
  exact scoutPhase_count _ _ _ _ _ _
    (evalPhase_count _ _ _
      (evalPhase_count _ _ _ h))

/-- The counter icall and the gateway-call count advance in lockstep
through any number of generations. -/
theorem applyGens_count (lb ub : List ℚ) (obj : List ℚ → ℚ) (kpow limit : ℕ)
    (gs : List GenOracle) (st : RState) (c : ℕ) (h : st.evals = c + st.icall) :
    (applyGens lb ub obj kpow limit gs st).evals
      = c + (applyGens lb ub obj kpow limit gs st).icall := by
  unfold applyGens
  refine List.foldlRecOn (motive := fun s => s.evals = c + s.icall)
    gs (fun s g => generation lb ub obj kpow limit g s) st h ?_
  intro s hs a _
  exact generation_count lb ub obj kpow limit a s c hs

end fscabc

namespace fscabc

/-- C1.  The claim asserts that rejecting a candidate leaves
currentPosition[i] exactly as it was at phase entry and that candidate
generation changes nothing but dimension j of candidatePosition[i].  The
code violates it: work[i][1] and work[i][3] are one array (line 127), so
the employed-phase write at line 151 mutates the current position itself.
Concretely, with bounds [0, 10], two bees at positions [2] and [4] with
fitness 5 and 7, oracle draws k = 1, j = 0, u = 1 for bee 0, and an
objective returning 0 (so every candidate is rejected), bee 0 ends the
employed phase rejected - fitness still 5, stagnation counter 1 - yet its
current position is no longer [2] (it is [0], the clamped candidate). -/
theorem C1_rejected_bee_current_position_mutated :
    ((evalPhase (fun _ => 0) (employedGenPhase [0] [10] [⟨1, 0, 1⟩, ⟨0, 0, 1⟩]
        ⟨[⟨5, [2], 0, 0⟩, ⟨7, [4], 0, 0⟩], 0, 0, [], 2⟩)).pop.getD 0 default).fit = 5 ∧
    ((evalPhase (fun _ => 0) (employedGenPhase [0] [10] [⟨1, 0, 1⟩, ⟨0, 0, 1⟩]
        ⟨[⟨5, [2], 0, 0⟩, ⟨7, [4], 0, 0⟩], 0, 0, [], 2⟩)).pop.getD 0 default).stag = 1 ∧
    ((evalPhase (fun _ => 0) (employedGenPhase [0] [10] [⟨1, 0, 1⟩, ⟨0, 0, 1⟩]
        ⟨[⟨5, [2], 0, 0⟩, ⟨7, [4], 0, 0⟩], 0, 0, [], 2⟩)).pop.getD 0 default).pos ≠ [2] := by
  norm_num [evalPhase, evalStep, employedGenPhase, employedGen1, mutDim, clampBounds,
    List.range_succ]

/-- C2 counterexample.  The claim asserts that no phase ever replaces
work[i][0] with a strictly smaller value.  The scout phase does: lines
232-238 unconditionally overwrite work[i][0] with the fitness of the
regenerated position.  Concretely, with bounds [0, 10], limit 1, chaotic
cursor 0 and an objective returning 1, the stagnated bee 0 enters the
scout phase with fitness 5 and leaves it with fitness 1. -/
theorem C2_counterexample_scout_reset_decreases_fitness :
    ((scoutPhase [0] [10] (fun _ => 1) 1
        ⟨[⟨5, [2], 1, 0⟩, ⟨7, [4], 0, 0⟩], 0, 10, [], 99⟩).pop.getD 0 default).fit
      < ((⟨[⟨5, [2], 1, 0⟩, ⟨7, [4], 0, 0⟩], 0, 10, [], 99⟩ : RState).pop.getD 0 default).fit := by
  norm_num [scoutPhase, scoutStep, scoutRegen, mutate, List.range_succ]

/-- C2 amended: within a generation, the employed phase (generation loop
plus evaluation/selection loop) and the onlooker phase never replace any
slot's current fitness work[i][0] with a strictly smaller value - a
candidate is accepted only on strict improvement (lines 169-174, 215-220);
only a scout reset can lower it. -/
theorem C2_fitness_monotone_in_employed_and_onlooker (lb ub : List ℚ) (obj : List ℚ → ℚ)
    (osE : List MutOracle) (osO : List OnOracle) (st : RState) (i : ℕ) :
    (st.pop.getD i default).fit
        ≤ ((evalPhase obj (employedGenPhase lb ub osE st)).pop.getD i default).fit ∧
    (st.pop.getD i default).fit
        ≤ ((evalPhase obj (onlookerGenPhase lb ub osO st)).pop.getD i default).fit := by
  constructor
  · calc (st.pop.getD i default).fit
        = ((employedGenPhase lb ub osE st).pop.getD i default).fit :=
          (employedGenPhase_fit lb ub osE st i).symm
      _ ≤ _ := evalPhase_fit_le obj (employedGenPhase lb ub osE st) i
  · calc (st.pop.getD i default).fit
        = ((onlookerGenPhase lb ub osO st).pop.getD i default).fit :=
          (onlookerGenPhase_fit lb ub osO st i).symm
      _ ≤ _ := evalPhase_fit_le obj (onlookerGenPhase lb ub osO st) i

/-- C3 counterexample.  The claim asserts that icall always equals the
total number of Evaluation Gateway calls, counting the eb
population-initialization evaluations.  It does not: line 140 sets
icall = 0 only after the initialization loop has issued its eb
evaluations.  Concretely, after initializing two bees the gateway has been
invoked twice while icall is 0. -/
theorem C3_counterexample_initialization_evaluations_uncounted :
    (initState (fun _ => (0 : ℚ)) 0 [[3], [4]]).icall
      ≠ (initState (fun _ => (0 : ℚ)) 0 [[3], [4]]).evals := by
  decide

/-- C3 amended: icall equals the number of Evaluation Gateway calls issued
after initialization (one per employed-phase candidate, one per
onlooker-phase candidate, one per scout reset); the total number of
gateway calls at any generation boundary is the eb initialization
evaluations plus icall. -/
theorem C3_icall_counts_evaluations_after_initialization (lb ub : List ℚ)
    (obj : List ℚ → ℚ) (kpow limit : ℕ) (r0 : ℚ) (pars : List (List ℚ))
    (gs : List GenOracle) :
    (applyGens lb ub obj kpow limit gs (initState obj r0 pars)).evals
      = pars.length + (applyGens lb ub obj kpow limit gs (initState obj r0 pars)).icall := by
  refine applyGens_count lb ub obj kpow limit gs (initState obj r0 pars) pars.length ?_
  simp [initState]

/-- C4.  The claim asserts that the scout-phase persistence call records
the regenerated position of bee i itself.  It does not: lines 236-237 save
work[rep][3] where rep is the stale loop variable of the onlooker
evaluation loop (eb - 1 under sequential execution), so the record holds
the last slot's array instead of bee i's regenerated position.  Concretely,
with bounds [0, 10], limit 1, cursor 0, objective constantly 1 and icall
10, resetting the stagnated bee 0 (regenerated position [0]) appends
exactly one record: likelihood 1, chains tag 10 (icall before the
increment), but parameter vector [4] - bee 1's array - and exactly one
gateway call is issued (evals 99 to 100, icall 10 to 11). -/
theorem C4_scout_save_records_wrong_bee :
    (scoutPhase [0] [10] (fun _ => 1) 1
        ⟨[⟨5, [2], 1, 0⟩, ⟨7, [4], 0, 0⟩], 0, 10, [], 99⟩).saves = [⟨1, [4], some 10⟩] ∧
    ((scoutPhase [0] [10] (fun _ => 1) 1
        ⟨[⟨5, [2], 1, 0⟩, ⟨7, [4], 0, 0⟩], 0, 10, [], 99⟩).pop.getD 0 default).pos = [0] ∧
    ((scoutPhase [0] [10] (fun _ => 1) 1
        ⟨[⟨5, [2], 1, 0⟩, ⟨7, [4], 0, 0⟩], 0, 10, [], 99⟩).saves.getD 0 default).par
      ≠ ((scoutPhase [0] [10] (fun _ => 1) 1
        ⟨[⟨5, [2], 1, 0⟩, ⟨7, [4], 0, 0⟩], 0, 10, [], 99⟩).pop.getD 0 default).pos ∧
    (scoutPhase [0] [10] (fun _ => 1) 1
        ⟨[⟨5, [2], 1, 0⟩, ⟨7, [4], 0, 0⟩], 0, 10, [], 99⟩).evals = 100 ∧
    (scoutPhase [0] [10] (fun _ => 1) 1
        ⟨[⟨5, [2], 1, 0⟩, ⟨7, [4], 0, 0⟩], 0, 10, [], 99⟩).icall = 11 := by
  norm_num [scoutPhase, scoutStep, scoutRegen, mutate, List.range_succ]

/-- C5 counterexample.  The claim asserts that for invalid configurations
such as eb <= 1 the run fails before any evaluation is spent and persists
nothing.  fscabc.sample performs no configuration validation: with eb = 1
the initialization loop (lines 112-127) still issues its evaluation and
persists one record before the employed-phase partner draw at lines
148-149 can diverge. -/
theorem C5_counterexample_invalid_config_spends_evaluations :
    (initState (fun _ => (0 : ℚ)) 0 [[3]]).evals ≠ 0 ∧
    (initState (fun _ => (0 : ℚ)) 0 [[3]]).saves ≠ [] := by
  decide

/-- C5 amended: no configuration check precedes initialization - for every
configuration, valid or not (eb <= 1, empty parameter space,
repetitions < eb), the initialization loop issues exactly one Evaluation
Gateway call and persists exactly one record per drawn parameter set, so
eb evaluations are always spent before any later failure. -/
theorem C5_initialization_always_spends_evaluations (obj : List ℚ → ℚ) (r0 : ℚ)
    (pars : List (List ℚ)) :
    (initState obj r0 pars).evals = pars.length ∧
    (initState obj r0 pars).saves.length = pars.length := by
  exact ⟨rfl, by simp [initState]⟩

/-- C7.  The claim asserts that sequential in-place employed-phase
generation produces the same candidates as generation from a snapshot of
the phase-entry currentPosition vectors.  It does not: through the
work[i][1]/work[i][3] aliasing of line 127, bee 1's candidate reads the
value bee 0's generation just wrote.  Concretely, with bounds [0, 10],
bees at [2] and [4], and oracle draws (k=1, j=0, u=1) and (k=0, j=0, u=1),
in-place generation yields positions [0] and [8] while snapshot generation
yields [0] and [6]. -/
theorem C7_inplace_generation_differs_from_snapshot :
    (employedGenPhase [0] [10] [⟨1, 0, 1⟩, ⟨0, 0, 1⟩]
        ⟨[⟨5, [2], 0, 0⟩, ⟨7, [4], 0, 0⟩], 0, 0, [], 2⟩).pop
      ≠ employedGenSnapshot [0] [10] [⟨1, 0, 1⟩, ⟨0, 0, 1⟩]
          [⟨5, [2], 0, 0⟩, ⟨7, [4], 0, 0⟩] := by
  norm_num [employedGenPhase, employedGen1, employedGenSnapshot, mutDim, clampBounds,
    List.range_succ]

end fscabc

namespace fscabc

/-- Assigning scaled weights preserves the population size. -/
theorem length_assignScaled (kpow : ℕ) (cs : ℚ) :
    ∀ (m : ℕ) (l : List Bee), (assignScaled kpow cs m l).length = l.length := by
  intro m l
  induction l generalizing m with
  | nil => rfl
  | cons b bs ih => simpa [assignScaled] using ih (m + 1)

/-- The scaled weight written into sorted slot i when ranks start at m. -/
theorem assignScaled_getD_scaled (kpow : ℕ) (cs : ℚ) :
    ∀ (l : List Bee) (m i : ℕ), i < l.length →
      ((assignScaled kpow cs m l).getD i default).scaled = ((m + i : ℕ) : ℚ) ^ kpow / cs := by
  intro l
  induction l with
  | nil => intro m i h; simp at h
  | cons b bs ih =>
    intro m i h
    cases i with
    | zero => simp [assignScaled]
    | succ i =>
      have hi : i < bs.length := by simpa using h
      have := ih (m + 1) i hi
      simpa [assignScaled, Nat.add_assoc, Nat.add_comm 1 i] using this

/-- The list of scaled weights in sorted order is the normalized power
ranks m, m+1, ..., m + length - 1. -/
theorem assignScaled_map_scaled (kpow : ℕ) (cs : ℚ) :
    ∀ (l : List Bee) (m : ℕ),
      (assignScaled kpow cs m l).map Bee.scaled
        = (List.range' m l.length).map (fun i : ℕ => (i : ℚ) ^ kpow / cs) := by
  intro l
  induction l with
  | nil => intro m; rfl
  | cons b bs ih =>
    intro m
    simp only [assignScaled, List.map_cons, List.length_cons, List.range'_succ]
    rw [ih (m + 1)]

/-- Sum of a function mapped over a block of consecutive naturals. -/
theorem sum_map_range' (f : ℕ → ℚ) :
    ∀ (n m : ℕ), ((List.range' m n).map f).sum = ∑ i ∈ Finset.Ico m (m + n), f i := by
  intro n
  induction n with
  | zero => intro m; simp
  | succ n ih =>
    intro m
    have hmn : m + 1 + n = m + (n + 1) := by omega
    rw [List.range'_succ, List.map_cons, List.sum_cons, ih (m + 1), hmn,
      Finset.sum_eq_sum_Ico_succ_bot (by omega : m < m + (n + 1))]

/-- Raw rank scores are nonnegative, so csum is nonnegative. -/
theorem csumOf_nonneg (kpow n : ℕ) : 0 ≤ csumOf kpow n := by
  unfold csumOf
  exact Finset.sum_nonneg fun i _ => pow_nonneg (Nat.cast_nonneg i) kpow

/-- With at least two bees the rank-1 score alone puts csum at 1 or more. -/
theorem one_le_csumOf (kpow n : ℕ) (hn : 2 ≤ n) : 1 ≤ csumOf kpow n := by
  unfold csumOf
  have h1 : (1 : ℕ) ∈ Finset.range n := Finset.mem_range.mpr (by omega)
  have := Finset.single_le_sum (f := fun i : ℕ => (i : ℚ) ^ kpow)
    (fun i _ => pow_nonneg (Nat.cast_nonneg i) kpow) h1
  simpa using this

/-- Fitness scaling preserves the population size. -/
theorem scalePhase_pop_length (kpow : ℕ) (st : RState) :
    (scalePhase kpow st).pop.length = st.pop.length := by
  unfold scalePhase
  dsimp only
  rw [length_assignScaled, List.length_insertionSort]

/-- The scaled weights after fitness scaling are exactly the normalized
power ranks 0, 1, ..., eb - 1. -/
theorem scalePhase_map_scaled (kpow : ℕ) (st : RState) :
    (scalePhase kpow st).pop.map Bee.scaled
      = (List.range' 0 st.pop.length).map
          (fun i : ℕ => (i : ℚ) ^ kpow / csumOf kpow st.pop.length) := by
  unfold scalePhase
  dsimp only
  rw [assignScaled_map_scaled, List.length_insertionSort]

/-- A cumulative-sum list has the length of its input. -/
theorem length_cumsumFrom : ∀ (l : List ℚ) (acc : ℚ), (cumsumFrom acc l).length = l.length := by
  intro l
  induction l with
  | nil => intro acc; rfl
  | cons x xs ih => intro acc; simpa [cumsumFrom] using ih (acc + x)

/-- A cumulative sum of nonnegative values is non-decreasing. -/
theorem cumsumFrom_chain' :
    ∀ (l : List ℚ) (acc : ℚ), (∀ x ∈ l, 0 ≤ x) →
      List.Chain' (· ≤ ·) (cumsumFrom acc l) := by
  intro l
  induction l with
  | nil => intro acc _; simp [cumsumFrom]
  | cons x xs ih =>
    intro acc h
    rw [cumsumFrom, List.chain'_cons']
    refine ⟨?_, ih (acc + x) fun y hy => h y (List.mem_cons_of_mem x hy)⟩
    intro b hb
    cases xs with
    | nil => simp [cumsumFrom] at hb
    | cons y ys =>
      have hy : 0 ≤ y := h y (by simp)
      simp only [cumsumFrom, List.head?_cons, Option.mem_def, Option.some.injEq] at hb
      linarith [hb]

/-- The last entry of a nonempty cumulative-sum list is the accumulator
plus the total sum. -/
theorem cumsumFrom_getLast?_cons :
    ∀ (l : List ℚ) (acc x : ℚ),
      (cumsumFrom acc (x :: l)).getLast? = some (acc + x + l.sum) := by
  intro l
  induction l with
  | nil => intro acc x; simp [cumsumFrom]
  | cons y ys ih =>
    intro acc x
    rw [cumsumFrom, cumsumFrom, List.getLast?_cons_cons, ← cumsumFrom, ih (acc + x) y]
    simp only [List.sum_cons, Option.some.injEq]
    ring

end fscabc

namespace fscabc

/-- After fitness scaling the scaled weights sum to exactly 1: the raw
rank scores divided by their own total. -/
theorem scalePhase_sum_scaled (kpow : ℕ) (st : RState) (hn : 2 ≤ st.pop.length) :
    ((scalePhase kpow st).pop.map Bee.scaled).sum = 1 := by
  rw [scalePhase_map_scaled, sum_map_range', Nat.zero_add, ← Finset.range_eq_Ico,
    ← Finset.sum_div]
  exact div_self (ne_of_gt (lt_of_lt_of_le one_pos (one_le_csumOf kpow _ hn)))

/-- Every scaled weight is nonnegative. -/
theorem scalePhase_scaled_nonneg (kpow : ℕ) (st : RState) :
    ∀ x ∈ (scalePhase kpow st).pop.map Bee.scaled, 0 ≤ x := by
  rw [scalePhase_map_scaled]
  intro x hx
  simp only [List.mem_map] at hx
  obtain ⟨i, _, rfl⟩ := hx
  exact div_nonneg (pow_nonneg (Nat.cast_nonneg i) kpow) (csumOf_nonneg kpow st.pop.length)

/-- The last entry of the cumulative bounds array after scaling is
exactly 1. -/
theorem boundsOf_scalePhase_getLast? (kpow : ℕ) (st : RState) (hn : 2 ≤ st.pop.length) :
    (boundsOf (scalePhase kpow st).pop).getLast? = some 1 := by
  have hsum := scalePhase_sum_scaled kpow st hn
  have hlen : ((scalePhase kpow st).pop.map Bee.scaled).length = st.pop.length := by
    rw [List.length_map, scalePhase_pop_length]
  rcases hl : (scalePhase kpow st).pop.map Bee.scaled with _ | ⟨x, xs⟩
  · rw [hl] at hlen
    simp at hlen
    omega
  · unfold boundsOf
    rw [hl, cumsumFrom_getLast?_cons]
    rw [hl, List.sum_cons] at hsum
    rw [zero_add, hsum]

/-- C8 counterexample.  The claim asserts that after fitness scaling every
bee, including the worst-ranked one, has a strictly positive selection
weight.  It does not: line 184 gives sorted rank 0 the raw score
0**kpow = 0, hence scaled weight 0.  Concretely, with the default kpow = 5
and a two-bee population the worst-ranked bee's scaled weight is 0. -/
theorem C8_counterexample_worst_bee_zero_weight :
    ¬ (0 < ((scalePhase 5
        ⟨[⟨5, [2], 0, 0⟩, ⟨7, [4], 0, 0⟩], 0, 0, [], 2⟩).pop.getD 0 default).scaled) := by
  norm_num [scalePhase, assignScaled, csumOf, List.insertionSort, List.orderedInsert,
    Finset.sum_range_succ]

/-- C8 amended: after fitness scaling every bee except the worst-ranked
one has a strictly positive scaled weight, and the worst-ranked bee
(sorted rank 0) has scaled weight exactly 0, for every population of size
at least 2 and every positive exponent (the default kpow = 5 included). -/
theorem C8_positive_weight_except_worst_rank (kpow : ℕ) (st : RState) (i : ℕ)
    (hk : 1 ≤ kpow) (hn : 2 ≤ st.pop.length) (hi1 : 1 ≤ i) (hi2 : i < st.pop.length) :
    0 < ((scalePhase kpow st).pop.getD i default).scaled ∧
    ((scalePhase kpow st).pop.getD 0 default).scaled = 0 := by
  have hcs : 0 < csumOf kpow st.pop.length :=
    lt_of_lt_of_le one_pos (one_le_csumOf kpow _ hn)
  unfold scalePhase
  dsimp only
  set sorted := List.insertionSort (fun b c : Bee => b.fit ≤ c.fit) st.pop with hs
  have hlen : sorted.length = st.pop.length := List.length_insertionSort _ _
  have h1 := assignScaled_getD_scaled kpow (csumOf kpow sorted.length) sorted 0 i
    (by rw [hlen]; exact hi2)
  have h0 := assignScaled_getD_scaled kpow (csumOf kpow sorted.length) sorted 0 0
    (by rw [hlen]; omega)
  constructor
  · rw [h1, hlen]
    simp only [Nat.zero_add]
    exact div_pos (pow_pos (by exact_mod_cast hi1) kpow) hcs
  · rw [h0]
    norm_num [zero_pow (by omega : kpow ≠ 0)]

/-- C8 amended witness at a concrete two-bee population with the default
exponent kpow = 5 and the second-worst rank i = 1. -/
theorem C8_positive_weight_except_worst_rank_witness :
    (1 ≤ 5) ∧
    (2 ≤ (⟨[⟨5, [2], 0, 0⟩, ⟨7, [4], 0, 0⟩], 0, 0, [], 2⟩ : RState).pop.length) ∧
    (0 < ((scalePhase 5
        ⟨[⟨5, [2], 0, 0⟩, ⟨7, [4], 0, 0⟩], 0, 0, [], 2⟩).pop.getD 1 default).scaled ∧
      ((scalePhase 5
        ⟨[⟨5, [2], 0, 0⟩, ⟨7, [4], 0, 0⟩], 0, 0, [], 2⟩).pop.getD 0 default).scaled = 0) :=
  ⟨by decide, by decide,
    C8_positive_weight_except_worst_rank 5
      ⟨[⟨5, [2], 0, 0⟩, ⟨7, [4], 0, 0⟩], 0, 0, [], 2⟩ 1
      (by decide) (by decide) (by decide) (by decide)⟩

/-- C9: for every population of size eb >= 2 and positive exponent, the
scaled weights sum to exactly 1 under exact rational arithmetic, and the
cumulative bounds array is non-decreasing with last entry exactly 1. -/
theorem C9_scaling_normalization (kpow : ℕ) (st : RState)
    (hk : 1 ≤ kpow) (hn : 2 ≤ st.pop.length) :
    ((scalePhase kpow st).pop.map Bee.scaled).sum = 1 ∧
    List.Chain' (· ≤ ·) (boundsOf (scalePhase kpow st).pop) ∧
    (boundsOf (scalePhase kpow st).pop).getLast? = some 1 :=
  ⟨scalePhase_sum_scaled kpow st hn,
    cumsumFrom_chain' ((scalePhase kpow st).pop.map Bee.scaled) 0
      (scalePhase_scaled_nonneg kpow st),
    boundsOf_scalePhase_getLast? kpow st hn⟩

/-- C9 witness at a concrete two-bee population with kpow = 5. -/
theorem C9_scaling_normalization_witness :
    (1 ≤ 5) ∧
    (2 ≤ (⟨[⟨5, [2], 0, 0⟩, ⟨7, [4], 0, 0⟩], 0, 0, [], 2⟩ : RState).pop.length) ∧
    (((scalePhase 5 ⟨[⟨5, [2], 0, 0⟩, ⟨7, [4], 0, 0⟩], 0, 0, [], 2⟩).pop.map Bee.scaled).sum = 1 ∧
      List.Chain' (· ≤ ·)
        (boundsOf (scalePhase 5 ⟨[⟨5, [2], 0, 0⟩, ⟨7, [4], 0, 0⟩], 0, 0, [], 2⟩).pop) ∧
      (boundsOf (scalePhase 5 ⟨[⟨5, [2], 0, 0⟩, ⟨7, [4], 0, 0⟩], 0, 0, [], 2⟩).pop).getLast?
        = some 1) :=
  ⟨by decide, by decide,
    C9_scaling_normalization 5 ⟨[⟨5, [2], 0, 0⟩, ⟨7, [4], 0, 0⟩], 0, 0, [], 2⟩
      (by decide) (by decide)⟩

/-- C10: for every scaled population of size eb >= 2 and every roulette
draw pn with 0 <= pn < 1, the selection loop finds an index (the last
cumulative bound is exactly 1 >= pn), so the guide z is always assigned
before line 203 reads it. -/
theorem C10_roulette_always_selects (kpow : ℕ) (st : RState) (pn : ℚ)
    (hn : 2 ≤ st.pop.length) (h0 : 0 ≤ pn) (h1 : pn < 1) :
    (rouletteZ (boundsOf (scalePhase kpow st).pop) pn).isSome = true := by
  unfold rouletteZ
  rw [List.find?_isSome]
  have hlen : (boundsOf (scalePhase kpow st).pop).length = st.pop.length := by
    unfold boundsOf
    rw [length_cumsumFrom, List.length_map, scalePhase_pop_length]
  refine ⟨(boundsOf (scalePhase kpow st).pop).length - 1, List.mem_range.mpr (by omega), ?_⟩
  have hlast := boundsOf_scalePhase_getLast? kpow st hn
  rw [List.getLast?_eq_getElem?] at hlast
  have hgd : (boundsOf (scalePhase kpow st).pop).getD
      ((boundsOf (scalePhase kpow st).pop).length - 1) 0 = 1 := by
    rw [List.getD_eq_getElem?_getD, hlast]
    rfl
  rw [hgd]
  exact decide_eq_true (by linarith)

/-- C10 witness at a concrete two-bee population with kpow = 5 and the
roulette draw pn = 0. -/
theorem C10_roulette_always_selects_witness :
    (2 ≤ (⟨[⟨5, [2], 0, 0⟩, ⟨7, [4], 0, 0⟩], 0, 0, [], 2⟩ : RState).pop.length) ∧
    ((0 : ℚ) ≤ 0) ∧ ((0 : ℚ) < 1) ∧
    (rouletteZ (boundsOf
        (scalePhase 5 ⟨[⟨5, [2], 0, 0⟩, ⟨7, [4], 0, 0⟩], 0, 0, [], 2⟩).pop) 0).isSome = true :=
  ⟨by decide, by decide, by decide,
    C10_roulette_always_selects 5 ⟨[⟨5, [2], 0, 0⟩, ⟨7, [4], 0, 0⟩], 0, 0, [], 2⟩ 0
      (by decide) (by decide) (by decide)⟩

end fscabc

namespace fscabc

/-- The sequential clamp of lines 153-156 lands in [lo, hi] whenever
lo <= hi. -/
theorem clampBounds_mem (lo hi v : ℚ) (h : lo ≤ hi) :
    lo ≤ clampBounds lo hi v ∧ clampBounds lo hi v ≤ hi := by
  unfold clampBounds
  dsimp only
  split_ifs <;> constructor <;> linarith

/-- A mutated coordinate lands within the bounds of its dimension. -/
theorem mutDim_mem (lb ub : List ℚ) (j : ℕ) (u xi xk : ℚ)
    (h : lb.getD j 0 ≤ ub.getD j 0) :
    lb.getD j 0 ≤ mutDim lb ub j u xi xk ∧ mutDim lb ub j u xi xk ≤ ub.getD j 0 :=
  clampBounds_mem _ _ _ h

/-- Setting one coordinate to a value within that dimension's bounds
preserves the bounds invariant of a position. -/
theorem inB_set (lb ub : List ℚ) (p : List ℚ) (j : ℕ) (v : ℚ)
    (hp : inB lb ub p)
    (hv : j < ub.length → lb.getD j 0 ≤ v ∧ v ≤ ub.getD j 0) :
    inB lb ub (p.set j v) := by
  obtain ⟨hlen, hball⟩ := hp
  refine ⟨by rw [List.length_set]; exact hlen, ?_⟩
  intro g hg
  by_cases hgj : g = j
  · subst hgj
    rw [getD_set_self (by omega : g < p.length)]
    exact hv hg
  · rw [getD_set_ne (Ne.symm hgj)]
    exact hball g hg

/-- Replacing one slot by an in-bounds bee preserves the population
invariant. -/
theorem popInB_set (lb ub : List ℚ) (pop : List Bee) (i : ℕ) (nb : Bee)
    (hpop : ∀ b ∈ pop, inB lb ub b.pos) (hnb : inB lb ub nb.pos) :
    ∀ b ∈ pop.set i nb, inB lb ub b.pos := by
  intro b hb
  rcases List.mem_or_eq_of_mem_set hb with h | h
  · exact hpop b h
  · subst h
    exact hnb

/-- One employed-phase generation step preserves the bounds invariant. -/
theorem employedGen1_inB (lb ub : List ℚ) (os : List MutOracle) (pop : List Bee) (i : ℕ)
    (hb : ∀ g, g < ub.length → lb.getD g 0 ≤ ub.getD g 0)
    (hpop : ∀ b ∈ pop, inB lb ub b.pos) :
    ∀ b ∈ employedGen1 lb ub os pop i, inB lb ub b.pos := by
  unfold employedGen1
  dsimp only
  by_cases hlen : i < pop.length
  · refine popInB_set lb ub pop i _ hpop ?_
    have hbi : inB lb ub (pop.getD i default).pos := hpop _ (getD_mem hlen default)
    exact inB_set lb ub _ _ _ hbi (fun hj => mutDim_mem lb ub _ _ _ _ (hb _ hj))
  · rw [List.set_eq_of_length_le (Nat.le_of_not_lt hlen)]
    exact hpop

/-- The employed-phase generation loop preserves the bounds invariant. -/
theorem employedGenPhase_inB (lb ub : List ℚ) (os : List MutOracle) (st : RState)
    (hb : ∀ g, g < ub.length → lb.getD g 0 ≤ ub.getD g 0)
    (hpop : ∀ b ∈ st.pop, inB lb ub b.pos) :
    ∀ b ∈ (employedGenPhase lb ub os st).pop, inB lb ub b.pos := by
  unfold employedGenPhase
  dsimp only
  refine List.foldlRecOn (motive := fun p => ∀ b ∈ p, inB lb ub b.pos)
    (List.range st.pop.length) (employedGen1 lb ub os) st.pop hpop ?_
  intro p hp a _
  exact employedGen1_inB lb ub os p a hb hp

/-- One onlooker-phase generation step preserves the bounds invariant. -/
theorem onlookerGen1_inB (lb ub : List ℚ) (os : List OnOracle) (bounds : List ℚ)
    (pop : List Bee) (i : ℕ)
    (hb : ∀ g, g < ub.length → lb.getD g 0 ≤ ub.getD g 0)
    (hpop : ∀ b ∈ pop, inB lb ub b.pos) :
    ∀ b ∈ onlookerGen1 lb ub os bounds pop i, inB lb ub b.pos := by
  unfold onlookerGen1
  dsimp only
  rcases hz : rouletteZ bounds ((os.getD i default).pn) with _ | z
  · exact hpop
  · dsimp only
    by_cases hlen : i < pop.length
    · refine popInB_set lb ub pop i _ hpop ?_
      have hbi : inB lb ub (pop.getD i default).pos := hpop _ (getD_mem hlen default)
      exact inB_set lb ub _ _ _ hbi (fun hj => mutDim_mem lb ub _ _ _ _ (hb _ hj))
    · rw [List.set_eq_of_length_le (Nat.le_of_not_lt hlen)]
      exact hpop

/-- The onlooker-phase generation loop preserves the bounds invariant. -/
theorem onlookerGenPhase_inB (lb ub : List ℚ) (os : List OnOracle) (st : RState)
    (hb : ∀ g, g < ub.length → lb.getD g 0 ≤ ub.getD g 0)
    (hpop : ∀ b ∈ st.pop, inB lb ub b.pos) :
    ∀ b ∈ (onlookerGenPhase lb ub os st).pop, inB lb ub b.pos := by
  unfold onlookerGenPhase
  dsimp only
  refine List.foldlRecOn (motive := fun p => ∀ b ∈ p, inB lb ub b.pos)
    (List.range st.pop.length) (onlookerGen1 lb ub os (boundsOf st.pop)) st.pop hpop ?_
  intro p hp a _
  exact onlookerGen1_inB lb ub os (boundsOf st.pop) p a hb hp

/-- One evaluation/selection step touches no position array. -/
theorem evalStep_inB (lb ub : List ℚ) (obj : List ℚ → ℚ) (st : RState) (rep : ℕ)
    (hpop : ∀ b ∈ st.pop, inB lb ub b.pos) :
    ∀ b ∈ (evalStep obj st rep).pop, inB lb ub b.pos := by
  unfold evalStep
  dsimp only
  by_cases hlen : rep < st.pop.length
  · refine popInB_set lb ub st.pop rep _ hpop ?_
    have hbi : inB lb ub (st.pop.getD rep default).pos := hpop _ (getD_mem hlen default)
    split <;> exact hbi
  · rw [List.set_eq_of_length_le (Nat.le_of_not_lt hlen)]
    exact hpop

/-- The evaluation/selection loop touches no position array. -/
theorem evalPhase_inB (lb ub : List ℚ) (obj : List ℚ → ℚ) (st : RState)
    (hpop : ∀ b ∈ st.pop, inB lb ub b.pos) :
    ∀ b ∈ (evalPhase obj st).pop, inB lb ub b.pos := by
  unfold evalPhase
  refine List.foldlRecOn (motive := fun s => ∀ b ∈ s.pop, inB lb ub b.pos)
    (List.range st.pop.length) (evalStep obj) st hpop ?_
  intro s hs a _
  exact evalStep_inB lb ub obj s a hs

/-- The evaluation/selection loop leaves the chaotic cursor alone. -/
theorem evalPhase_r (obj : List ℚ → ℚ) (st : RState) : (evalPhase obj st).r = st.r := by
  unfold evalPhase
  refine List.foldlRecOn (motive := fun s => s.r = st.r)
    (List.range st.pop.length) (evalStep obj) st rfl ?_
  intro s hs a _
  exact hs

/-- Every bee produced by the normalization loop carries the position of a
bee of its input. -/
theorem assignScaled_pos_mem (kpow : ℕ) (cs : ℚ) :
    ∀ (l : List Bee) (m : ℕ) (b : Bee), b ∈ assignScaled kpow cs m l →
      ∃ b0 ∈ l, b.pos = b0.pos := by
  intro l
  induction l with
  | nil => intro m b hb; simp [assignScaled] at hb
  | cons c cs' ih =>
    intro m b hb
    simp only [assignScaled] at hb
    rcases List.mem_cons.mp hb with hb | hb
    · exact ⟨c, List.mem_cons_self c cs', by rw [hb]⟩
    · obtain ⟨b0, hb0, hpos⟩ := ih (m + 1) b hb
      exact ⟨b0, List.mem_cons_of_mem c hb0, hpos⟩

/-- Fitness scaling permutes the bees and rewrites only scaled weights, so
it preserves the bounds invariant. -/
theorem scalePhase_inB (lb ub : List ℚ) (kpow : ℕ) (st : RState)
    (hpop : ∀ b ∈ st.pop, inB lb ub b.pos) :
    ∀ b ∈ (scalePhase kpow st).pop, inB lb ub b.pos := by
  unfold scalePhase
  dsimp only
  intro b hbmem
  obtain ⟨b0, hb0, hpos⟩ := assignScaled_pos_mem _ _ _ _ _ hbmem
  rw [hpos]
  exact hpop b0 ((List.perm_insertionSort _ st.pop).mem_iff.mp hb0)

/-- The logistic map keeps the chaotic cursor inside [0, 1]. -/
theorem mutate_mem_unit (r : ℚ) (h0 : 0 ≤ r) (h1 : r ≤ 1) :
    0 ≤ mutate r ∧ mutate r ≤ 1 := by
  unfold mutate
  constructor
  · nlinarith
  · nlinarith [sq_nonneg (2 * r - 1)]

/-- The chaotic cursor stays inside [0, 1] across a scout regeneration,
whatever position array it rewrites. -/
theorem scoutRegen_r_unit (lb ub : List ℚ) (r0 : ℚ) (p : List ℚ)
    (h0 : 0 ≤ r0) (h1 : r0 ≤ 1) :
    0 ≤ (scoutRegen lb ub r0 p).1 ∧ (scoutRegen lb ub r0 p).1 ≤ 1 := by
  unfold scoutRegen
  refine List.foldlRecOn (motive := fun s => 0 ≤ s.1 ∧ s.1 ≤ 1)
    (List.range ub.length) _ (r0, p) ⟨h0, h1⟩ ?_
  intro s hs g _
  exact mutate_mem_unit s.1 hs.1 hs.2

/-- A scout regeneration keeps the position inside the bounds. -/
theorem scoutRegen_inB (lb ub : List ℚ) (r0 : ℚ) (p : List ℚ)
    (hb : ∀ g, g < ub.length → lb.getD g 0 ≤ ub.getD g 0)
    (h0 : 0 ≤ r0) (h1 : r0 ≤ 1) (hp : inB lb ub p) :
    inB lb ub (scoutRegen lb ub r0 p).2 := by
  unfold scoutRegen
  have := List.foldlRecOn (motive := fun s => (0 ≤ s.1 ∧ s.1 ≤ 1) ∧ inB lb ub s.2)
    (List.range ub.length)
    (fun s g =>
      let r := mutate s.1
      (r, s.2.set g (lb.getD g 0 + r * (ub.getD g 0 - lb.getD g 0))))
    (r0, p) ⟨⟨h0, h1⟩, hp⟩ ?_
  · exact this.2
  · intro s hs g _
    have hr := mutate_mem_unit s.1 hs.1.1 hs.1.2
    refine ⟨hr, ?_⟩
    refine inB_set lb ub s.2 g _ hs.2 ?_
    intro hgu
    have hbg := hb g hgu
    constructor
    · nlinarith [hr.1, hr.2]
    · nlinarith [hr.1, hr.2]

/-- One scout step preserves the bounds invariant and keeps the chaotic
cursor inside [0, 1]. -/
theorem scoutStep_inv (lb ub : List ℚ) (obj : List ℚ → ℚ) (limit : ℕ)
    (st : RState) (i : ℕ)
    (hb : ∀ g, g < ub.length → lb.getD g 0 ≤ ub.getD g 0)
    (hpop : ∀ b ∈ st.pop, inB lb ub b.pos) (h0 : 0 ≤ st.r) (h1 : st.r ≤ 1) :
    (∀ b ∈ (scoutStep lb ub obj limit st i).pop, inB lb ub b.pos) ∧
    0 ≤ (scoutStep lb ub obj limit st i).r ∧ (scoutStep lb ub obj limit st i).r ≤ 1 := by
  unfold scoutStep
  dsimp only
  split
  · dsimp only
    have hrr := scoutRegen_r_unit lb ub st.r (st.pop.getD i default).pos h0 h1
    by_cases hlen : i < st.pop.length
    · have hbi : inB lb ub (st.pop.getD i default).pos := hpop _ (getD_mem hlen default)
      exact ⟨popInB_set lb ub st.pop i _ hpop
        (scoutRegen_inB lb ub st.r _ hb h0 h1 hbi), hrr.1, hrr.2⟩
    · rw [List.set_eq_of_length_le (Nat.le_of_not_lt hlen)]
      exact ⟨hpop, hrr.1, hrr.2⟩
  · exact ⟨hpop, h0, h1⟩

/-- The scout phase preserves the bounds invariant and keeps the chaotic
cursor inside [0, 1]. -/
theorem scoutPhase_inv (lb ub : List ℚ) (obj : List ℚ → ℚ) (limit : ℕ) (st : RState)
    (hb : ∀ g, g < ub.length → lb.getD g 0 ≤ ub.getD g 0)
    (hpop : ∀ b ∈ st.pop, inB lb ub b.pos) (h0 : 0 ≤ st.r) (h1 : st.r ≤ 1) :
    (∀ b ∈ (scoutPhase lb ub obj limit st).pop, inB lb ub b.pos) ∧
    0 ≤ (scoutPhase lb ub obj limit st).r ∧ (scoutPhase lb ub obj limit st).r ≤ 1 := by
  unfold scoutPhase
  refine List.foldlRecOn
    (motive := fun s => (∀ b ∈ s.pop, inB lb ub b.pos) ∧ 0 ≤ s.r ∧ s.r ≤ 1)
    (List.range st.pop.length) (scoutStep lb ub obj limit) st ⟨hpop, h0, h1⟩ ?_
  intro s hs a _
  exact scoutStep_inv lb ub obj limit s a hb hs.1 hs.2.1 hs.2.2

/-- One full generation preserves the bounds invariant and keeps the
chaotic cursor inside [0, 1]. -/
theorem generation_inv (lb ub : List ℚ) (obj : List ℚ → ℚ) (kpow limit : ℕ)
    (g : GenOracle) (st : RState)
    (hb : ∀ g, g < ub.length → lb.getD g 0 ≤ ub.getD g 0)
    (hpop : ∀ b ∈ st.pop, inB lb ub b.pos) (h0 : 0 ≤ st.r) (h1 : st.r ≤ 1) :
    (∀ b ∈ (generation lb ub obj kpow limit g st).pop, inB lb ub b.pos) ∧
    0 ≤ (generation lb ub obj kpow limit g st).r ∧
    (generation lb ub obj kpow limit g st).r ≤ 1 := by
  unfold generation
  have s1 := employedGenPhase_inB lb ub g.emp st hb hpop
  have s2 := evalPhase_inB lb ub obj (employedGenPhase lb ub g.emp st) s1
  have s3 := scalePhase_inB lb ub kpow (evalPhase obj (employedGenPhase lb ub g.emp st)) s2
  have s4 := onlookerGenPhase_inB lb ub g.onl
    (scalePhase kpow (evalPhase obj (employedGenPhase lb ub g.emp st))) hb s3
  have s5 := evalPhase_inB lb ub obj
    (onlookerGenPhase lb ub g.onl (scalePhase kpow (evalPhase obj (employedGenPhase lb ub g.emp st)))) s4
  have hr5 : (evalPhase obj
      (onlookerGenPhase lb ub g.onl
        (scalePhase kpow (evalPhase obj (employedGenPhase lb ub g.emp st))))).r = st.r := by
    rw [evalPhase_r]
    show (scalePhase kpow (evalPhase obj (employedGenPhase lb ub g.emp st))).r = st.r
    show (evalPhase obj (employedGenPhase lb ub g.emp st)).r = st.r
    rw [evalPhase_r]
    rfl
  exact scoutPhase_inv lb ub obj limit _ hb s5 (hr5 ▸ h0) (hr5 ▸ h1)

/-- Any number of generations preserves the bounds invariant and keeps the
chaotic cursor inside [0, 1]. -/
theorem applyGens_inv (lb ub : List ℚ) (obj : List ℚ → ℚ) (kpow limit : ℕ)
    (gs : List GenOracle) (st : RState)
    (hb : ∀ g, g < ub.length → lb.getD g 0 ≤ ub.getD g 0)
    (hpop : ∀ b ∈ st.pop, inB lb ub b.pos) (h0 : 0 ≤ st.r) (h1 : st.r ≤ 1) :
    (∀ b ∈ (applyGens lb ub obj kpow limit gs st).pop, inB lb ub b.pos) ∧
    0 ≤ (applyGens lb ub obj kpow limit gs st).r ∧
    (applyGens lb ub obj kpow limit gs st).r ≤ 1 := by
  unfold applyGens
  refine List.foldlRecOn
    (motive := fun s => (∀ b ∈ s.pop, inB lb ub b.pos) ∧ 0 ≤ s.r ∧ s.r ≤ 1)
    gs (fun s g => generation lb ub obj kpow limit g s) st ⟨hpop, h0, h1⟩ ?_
  intro s hs a _
  exact generation_inv lb ub obj kpow limit a s hb hs.1 hs.2.1 hs.2.2

end fscabc

namespace fscabc

/-- C6: assuming the parameter space is consistent (lower bound at most
upper bound in every dimension), every initially sampled vector is
feasible, and the chaotic seed lies in [0, 1] (the code draws it in
(0, 1)), every position held by any bee after any number of generations
satisfies lowerBound[g] <= position[g] <= upperBound[g] in every
dimension: employed and onlooker writes are clamped to the bounds of the
mutated dimension, and scout resets write lb[g] + r * (ub[g] - lb[g]) with
the logistic-map cursor r staying in [0, 1]. -/
theorem C6_bounds_invariant (lb ub : List ℚ) (obj : List ℚ → ℚ) (kpow limit : ℕ)
    (r0 : ℚ) (pars : List (List ℚ)) (gs : List GenOracle)
    (hb : ∀ g, g < ub.length → lb.getD g 0 ≤ ub.getD g 0)
    (hpars : ∀ p ∈ pars, inB lb ub p)
    (hr0 : 0 ≤ r0) (hr1 : r0 ≤ 1) :
    ∀ b ∈ (applyGens lb ub obj kpow limit gs (initState obj r0 pars)).pop,
      inB lb ub b.pos := by
  have hinit : ∀ b ∈ (initState obj r0 pars).pop, inB lb ub b.pos := by
    intro b hbm
    simp only [initState, List.mem_map] at hbm
    obtain ⟨p, hp, rfl⟩ := hbm
    exact hpars p hp
  exact (applyGens_inv lb ub obj kpow limit gs (initState obj r0 pars) hb hinit hr0 hr1).1

/-- C6 witness: a concrete one-dimensional space with bounds [0, 10], two
feasible initial vectors, seed 0 and one full generation of concrete
oracle draws. -/
theorem C6_bounds_invariant_witness :
    (∀ g, g < ([10] : List ℚ).length → ([0] : List ℚ).getD g 0 ≤ ([10] : List ℚ).getD g 0) ∧
    (∀ p ∈ [[(3 : ℚ)], [4]], inB [0] [10] p) ∧
    ((0 : ℚ) ≤ 0) ∧ ((0 : ℚ) ≤ 1) ∧
    (∀ b ∈ (applyGens [0] [10] (fun _ => 1) 5 2
        [⟨[⟨1, 0, 1⟩, ⟨0, 0, 1⟩], [⟨0, 1, 0, 1⟩, ⟨0, 0, 0, 1⟩]⟩]
        (initState (fun _ => 1) 0 [[3], [4]])).pop, inB [0] [10] b.pos) :=
  ⟨by decide, by decide, by decide, by decide,
    C6_bounds_invariant [0] [10] (fun _ => 1) 5 2 0 [[3], [4]]
      [⟨[⟨1, 0, 1⟩, ⟨0, 0, 1⟩], [⟨0, 1, 0, 1⟩, ⟨0, 0, 0, 1⟩]⟩]
      (by decide) (by decide) (by decide) (by decide)⟩

end fscabc
